import Mathlib

/-!
Shallow embedding of `wait.py`: a filesystem watcher that filters events
through include/exclude shell globs, accumulates deduplicated changes in a
process-wide set, and on each tick of a polling loop prints the pending
changes sorted by path, runs a user command, and clears the set.

Strings are modelled as `List Char`; the Python `set` as a duplicate-free
`List`; the watch loop's observable behaviour per iteration as `tick`.
-/

/-! ## Shell-glob matching (`fnmatch.fnmatchcase`) -/

/-- Scan a character-class body for its closing `]`: what comes before it and
the rest of the pattern after it, or `none` when the class is unterminated. -/
def scanTo : List Char → Option (List Char × List Char)
  | [] => none
  | c :: cs =>
    if c = ']' then some ([], cs)
    else (scanTo cs).map (fun r => (c :: r.1, r.2))

/-- Parse the pattern following a `[`, as `fnmatch` does: an optional leading
`!` negates the class, a `]` right after that is a literal member, and the
class ends at the next `]`; `none` when no closing `]` exists (the `[` is
then an ordinary character). -/
def parseClass (ps : List Char) : Option (Bool × List Char × List Char) :=
  let start : Bool × List Char :=
    match ps with
    | '!' :: rest => (true, rest)
    | _ => (false, ps)
  match start.2 with
  | ']' :: rest2 => (scanTo rest2).map (fun r => (start.1, ']' :: r.1, r.2))
  | _ => (scanTo start.2).map (fun r => (start.1, r.1, r.2))

/-- Membership of a character in a class body: `a-b` spans a range, any other
character stands for itself (a `-` first or last is literal). -/
def inClass : List Char → Char → Bool
  | a :: '-' :: b :: rest, c => (a ≤ c && c ≤ b) || inClass rest c
  | a :: rest, c => (a = c) || inClass rest c
  | [], _ => false

/-- Case-sensitive shell-glob match of the whole string `s` against pattern
`p`: `*` matches any run, `?` any one character, `[...]`/`[!...]` a character
class, anything else itself. -/
def globMatch (p s : List Char) : Bool :=
  match p, s with
  | [], t => t.isEmpty
  | '*' :: ps, t =>
    globMatch ps t ||
      (match t with
       | [] => false
       | _ :: cs => globMatch ('*' :: ps) cs)
  | '?' :: ps, t =>
    match t with
    | [] => false
    | _ :: cs => globMatch ps cs
  | '[' :: ps, t =>
    match parseClass ps with
    | none =>
      match t with
      | [] => false
      | c :: cs => ('[' = c) && globMatch ps cs
    | some r =>
      match t with
      | [] => false
      | c :: cs => (inClass r.2.1 c != r.1) && globMatch r.2.2 cs
  | a :: ps, t =>
    match t with
    | [] => false
    | c :: cs => (a = c) && globMatch ps cs
termination_by (s.length, p.length)

/-- `fnmatch.fnmatchcase(name, pat)`. -/
def fnmatchcase (name pat : List Char) : Bool := globMatch pat name

/-! ## The Handler (change classifier) -/

/-- Python `str.split(sep)` for a one-character separator: splits at every
occurrence, keeping empty pieces. -/
def pySplit (sep : Char) : List Char → List (List Char)
  | [] => [[]]
  | c :: cs =>
    if c = sep then [] :: pySplit sep cs
    else
      match pySplit sep cs with
      | [] => [[c]]
      | p :: ps => (c :: p) :: ps

/-- A change to the file system: a kind code (`M`, `R` or `D`) and a path. -/
structure Change where
  code : Char
  path : List Char
deriving DecidableEq

/-- The shared change set, modelled as a duplicate-free list; `Set.add`. -/
def insertChange (s : List Change) (c : Change) : List Change :=
  if c ∈ s then s else s ++ [c]

/-- A sequence of `Set.add` calls. -/
def insertAll (s : List Change) (cs : List Change) : List Change :=
  cs.foldl insertChange s

/-- The event shape the watchdog collaborator delivers. -/
structure FSEvent where
  is_directory : Bool
  src_path : List Char
  dest_path : List Char

/-- The configured include and exclude glob lists. -/
structure Handler where
  patterns : List (List Char)
  excludes : List (List Char)

/-- `Handler.__init__`: each comma-separated option is split on every comma;
an absent or empty option gives the empty list. -/
def mkHandler (patterns excludes : List Char) : Handler :=
  { patterns := if patterns.isEmpty then [] else pySplit ',' patterns,
    excludes := if excludes.isEmpty then [] else pySplit ',' excludes }

/-- `Handler._matches(glob, path)` = `fnmatch.fnmatchcase(path, glob)`. -/
def matchesGlob (glob path : List Char) : Bool := fnmatchcase path glob

/-- `Handler._should_process`: never a directory; any exclude match refuses;
otherwise any include match accepts. -/
def shouldProcess (h : Handler) (e : FSEvent) : Bool :=
  if e.is_directory then false
  else if h.excludes.any (fun g => matchesGlob g e.src_path) then false
  else h.patterns.any (fun g => matchesGlob g e.src_path)

/-- `Handler.on_moved`: a processed move inserts a Renamed change at the
event's source path. -/
def on_moved (h : Handler) (s : List Change) (e : FSEvent) : List Change :=
  if shouldProcess h e then insertChange s { code := 'R', path := e.src_path } else s

/-- `Handler.on_deleted`. -/
def on_deleted (h : Handler) (s : List Change) (e : FSEvent) : List Change :=
  if shouldProcess h e then insertChange s { code := 'D', path := e.src_path } else s

/-- `Handler.on_modified`. -/
def on_modified (h : Handler) (s : List Change) (e : FSEvent) : List Change :=
  if shouldProcess h e then insertChange s { code := 'M', path := e.src_path } else s

/-! ## Sorting the drained changes by path -/

/-- Lexicographic comparison of paths by character code, Python string `<=`. -/
def pathLe : List Char → List Char → Bool
  | [], _ => true
  | _ :: _, [] => false
  | a :: as, b :: bs => if a < b then true else if b < a then false else pathLe as bs

/-- The sort key of the drain loop: `sorted(CHANGES, key=lambda x: x.path)`. -/
def changeLe (a b : Change) : Prop := pathLe a.path b.path = true

instance : DecidableRel changeLe :=
  fun a b => inferInstanceAs (Decidable (pathLe a.path b.path = true))

/-- `sorted(CHANGES, key=lambda x: x.path)`. -/
def sortByPath (l : List Change) : List Change := List.insertionSort changeLe l

/-! ## Command tokenization and spawning (`_run_command`) -/

/-- Errors `_run_command` can raise: `shlex.split` on an unclosed quote or a
dangling escape, and a spawn failure from `subprocess.run`. -/
inductive TokError where
  | noClosingQuote
  | noEscapedChar
deriving DecidableEq

/-- The states of `shlex`'s POSIX scanner: between tokens, inside a word,
inside single or double quotes, and after an escape character (outside or
inside double quotes). -/
inductive SState where
  | ws
  | word
  | single
  | double
  | esc
  | escDouble

/-- `shlex`'s whitespace characters. -/
def isWs (c : Char) : Bool := c = ' ' || c = '\t' || c = '\r' || c = '\n'

/-- The `shlex` POSIX scanner, one character per step: `tok` is the token
being built and `has` whether a token exists (a closed quote yields a token
even when empty). Single quotes are fully literal; inside double quotes a
backslash escapes only `"` and `\`; an unclosed quote or a trailing escape
raises. -/
def shlexRun (st : SState) (input : List Char) (tok : List Char) (has : Bool) :
    Except TokError (List (List Char)) :=
  match input with
  | [] =>
    match st with
    | .single | .double => .error .noClosingQuote
    | .esc | .escDouble => .error .noEscapedChar
    | _ => if has then .ok [tok] else .ok []
  | c :: cs =>
    match st with
    | .ws =>
      if isWs c then shlexRun .ws cs [] false
      else if c = '\'' then shlexRun .single cs tok true
      else if c = '"' then shlexRun .double cs tok true
      else if c = '\\' then shlexRun .esc cs tok true
      else shlexRun .word cs (tok ++ [c]) true
    | .word =>
      if isWs c then (shlexRun .ws cs [] false).map (fun ts => tok :: ts)
      else if c = '\'' then shlexRun .single cs tok true
      else if c = '"' then shlexRun .double cs tok true
      else if c = '\\' then shlexRun .esc cs tok true
      else shlexRun .word cs (tok ++ [c]) true
    | .single =>
      if c = '\'' then shlexRun .word cs tok true
      else shlexRun .single cs (tok ++ [c]) true
    | .double =>
      if c = '"' then shlexRun .word cs tok true
      else if c = '\\' then shlexRun .escDouble cs tok true
      else shlexRun .double cs (tok ++ [c]) true
    | .esc => shlexRun .word cs (tok ++ [c]) true
    | .escDouble =>
      if c = '"' || c = '\\' then shlexRun .double cs (tok ++ [c]) true
      else shlexRun .double cs (tok ++ ['\\', c]) true

/-- `shlex.split`. -/
def shlexSplit (s : List Char) : Except TokError (List (List Char)) :=
  shlexRun .ws s [] false

/-- What `_run_command` hands to the operating system: the tokenized argv,
executed directly (`subprocess.run(args)`, no shell interpreter). -/
structure Spawn where
  argv : List (List Char)
  useShell : Bool
deriving DecidableEq

/-- The spawn request `_run_command(command)` makes, or the tokenize error it
raises. -/
def runCommandSpawn (command : List Char) : Except TokError Spawn :=
  (shlexSplit command).map (fun args => { argv := args, useShell := false })

/-! ## One iteration of the watch loop -/

/-- What the environment feeds one loop iteration: the changes the handler
inserted before the non-empty check, those it inserts while the command is
running, and whether the spawn succeeds. -/
structure TickInput where
  pre : List Change
  mid : List Change
  spawnOk : Bool

/-- The observable outcome of one iteration: whether an exception escaped the
loop body (nothing inside `wait` catches it, so the loop terminates), the
contents of `CHANGES` afterwards, and the changes printed, in order. -/
structure TickResult where
  crashed : Bool
  pending : List Change
  printed : List Change
deriving DecidableEq

/-- One iteration of `wait`'s `while True` body: if `CHANGES` is non-empty it
prints the changes sorted by path, runs the command, and calls
`CHANGES.clear()` — which also erases whatever was inserted while the command
ran. A tokenize or spawn error escapes before the `clear()`. -/
def tick (command : List Char) (changes : List Change) (inp : TickInput) : TickResult :=
  let p1 := insertAll changes inp.pre
  if p1.isEmpty then { crashed := false, pending := p1, printed := [] }
  else
    let printed := sortByPath p1
    match shlexSplit command with
    | .error _ => { crashed := true, pending := insertAll p1 inp.mid, printed := printed }
    | .ok _ =>
      if inp.spawnOk then { crashed := false, pending := [], printed := printed }
      else { crashed := true, pending := insertAll p1 inp.mid, printed := printed }

/-! ## Supporting lemmas -/

theorem pathLe_total : ∀ x y : List Char, pathLe x y = true ∨ pathLe y x = true
  | [], _ => Or.inl rfl
  | _ :: _, [] => Or.inr rfl
  | a :: as, b :: bs => by
    rcases lt_trichotomy a b with h | h | h
    · exact Or.inl (by simp [pathLe, h])
    · subst h
      rcases pathLe_total as bs with ih | ih
      · exact Or.inl (by simp [pathLe, lt_irrefl, ih])
      · exact Or.inr (by simp [pathLe, lt_irrefl, ih])
    · exact Or.inr (by simp [pathLe, h])

theorem pathLe_trans : ∀ x y z : List Char,
    pathLe x y = true → pathLe y z = true → pathLe x z = true
  | [], _, _, _, _ => rfl
  | _ :: _, [], _, hxy, _ => by simp [pathLe] at hxy
  | _ :: _, _ :: _, [], _, hyz => by simp [pathLe] at hyz
  | a :: as, b :: bs, c :: cs, hxy, hyz => by
    simp only [pathLe] at hxy hyz ⊢
    rcases lt_trichotomy a b with hab | hab | hab
    · rcases lt_trichotomy b c with hbc | hbc | hbc
      · simp [lt_trans hab hbc]
      · subst hbc; simp [hab]
      · simp [asymm hbc, hbc] at hyz
    · subst hab
      rcases lt_trichotomy a c with hac | hac | hac
      · simp [hac]
      · subst hac
        simp only [lt_irrefl, if_false] at hxy hyz ⊢
        exact pathLe_trans as bs cs hxy hyz
      · simp [asymm hac, hac] at hyz
    · simp [asymm hab, hab] at hxy

instance : IsTotal Change changeLe :=
  ⟨fun a b => pathLe_total a.path b.path⟩

instance : IsTrans Change changeLe :=
  ⟨fun a b c => pathLe_trans a.path b.path c.path⟩

theorem mem_insertChange (s : List Change) (c d : Change) :
    c ∈ insertChange s d ↔ c ∈ s ∨ c = d := by
  unfold insertChange
  split_ifs with h
  · constructor
    · exact Or.inl
    · rintro (hc | rfl)
      · exact hc
      · exact h
  · simp [List.mem_append]

theorem self_mem_insertChange (s : List Change) (c : Change) : c ∈ insertChange s c :=
  (mem_insertChange s c c).2 (Or.inr rfl)

theorem insertChange_of_mem {s : List Change} {c : Change} (h : c ∈ s) :
    insertChange s c = s := by
  simp [insertChange, h]

theorem mem_insertAll (l : List Change) : ∀ (s : List Change) (c : Change),
    c ∈ s → c ∈ insertAll s l := by
  induction l with
  | nil => exact fun s c h => h
  | cons d ds ih =>
    intro s c h
    have : insertAll s (d :: ds) = insertAll (insertChange s d) ds := rfl
    rw [this]
    exact ih _ _ ((mem_insertChange s c d).2 (Or.inl h))

theorem count_insertChange (s : List Change) (c : Change) (h : s.count c ≤ 1) :
    (insertChange s c).count c = 1 := by
  unfold insertChange
  split_ifs with hm
  · have h1 : 0 < s.count c := List.count_pos_iff.2 hm
    omega
  · have h0 : s.count c = 0 := List.count_eq_zero.2 hm
    simp [List.count_append, h0]

theorem pySplit_sep_not_mem (sep : Char) (s : List Char) :
    ∀ piece ∈ pySplit sep s, sep ∉ piece := by
  induction s with
  | nil =>
    intro piece hp
    simp only [pySplit, List.mem_singleton] at hp
    subst hp
    simp
  | cons c cs ih =>
    intro piece hp
    by_cases hc : c = sep
    · have heq : pySplit sep (c :: cs) = [] :: pySplit sep cs := by
        simp [pySplit, hc]
      rw [heq] at hp
      rcases List.mem_cons.1 hp with rfl | hp'
      · simp
      · exact ih piece hp'
    · cases hps : pySplit sep cs with
      | nil =>
        have heq : pySplit sep (c :: cs) = [[c]] := by
          simp [pySplit, hc, hps]
        rw [heq] at hp
        have hpc := List.mem_singleton.1 hp
        subst hpc
        intro hm
        exact hc (List.mem_singleton.1 hm).symm
      | cons p ps =>
        have heq : pySplit sep (c :: cs) = (c :: p) :: ps := by
          simp [pySplit, hc, hps]
        rw [heq] at hp
        rcases List.mem_cons.1 hp with rfl | hp'
        · intro hm
          rcases List.mem_cons.1 hm with h1 | h2
          · exact hc h1.symm
          · exact ih p (by rw [hps]; exact List.mem_cons_self p ps) h2
        · exact ih piece (by rw [hps]; exact List.mem_cons_of_mem p hp')

/-! ## The claims -/

/-- Claim C1: for every path, include list G and exclude list E,
`_should_process` returns true iff the event is not a directory, its path
matches no exclude glob, and it matches at least one include glob; a path
matching an exclude is never processed, an empty include list processes
nothing, and an empty exclude list excludes nothing. -/
theorem c1_should_process (G E : List (List Char)) (dir : Bool) (p d : List Char) :
    (shouldProcess ⟨G, E⟩ ⟨dir, p, d⟩ = true ↔
      dir = false ∧ (∀ g ∈ E, matchesGlob g p = false) ∧ ∃ g ∈ G, matchesGlob g p = true)
    ∧ (E.any (fun g => matchesGlob g p) = true → shouldProcess ⟨G, E⟩ ⟨dir, p, d⟩ = false)
    ∧ shouldProcess ⟨[], E⟩ ⟨dir, p, d⟩ = false
    ∧ shouldProcess ⟨G, []⟩ ⟨dir, p, d⟩ = (!dir && G.any (fun g => matchesGlob g p)) := by
  refine ⟨?_, ?_, ?_, ?_⟩
  · constructor
    · intro h
      simp only [shouldProcess] at h
      split_ifs at h with h1 h2
      refine ⟨by simpa using h1, ?_, ?_⟩
      · intro g hg
        by_contra hgm
        rw [Bool.not_eq_false] at hgm
        exact h2 (List.any_eq_true.2 ⟨g, hg, hgm⟩)
      · exact List.any_eq_true.1 h
    · rintro ⟨hdir, hex, g, hg, hgm⟩
      have hE : E.any (fun g => matchesGlob g p) = false := by
        rw [List.any_eq_false]
        intro x hx
        simp [hex x hx]
      simp only [shouldProcess, hdir, hE]
      simpa using List.any_eq_true.2 ⟨g, hg, hgm⟩
  · intro hE
    simp [shouldProcess, hE]
  · cases dir <;> simp [shouldProcess]
  · cases dir <;> simp [shouldProcess]

theorem count_iterate_insertChange (c : Change) : ∀ (n : Nat) (s : List Change),
    s.count c ≤ 1 → ((fun t => insertChange t c)^[n + 1] s).count c = 1
  | 0, s, h => by simpa using count_insertChange s c h
  | m + 1, s, h => by
    rw [Function.iterate_succ_apply]
    exact count_iterate_insertChange c m (insertChange s c)
      (le_of_eq (count_insertChange s c h))

/-- Claim C4: insertion into the change set is idempotent — inserting the
same (kind, path) pair any number of times leaves exactly one entry for it,
with no duplicates and no error. -/
theorem c4_insert_idempotent (s : List Change) (c : Change) (n : Nat)
    (h : s.count c ≤ 1) :
    ((fun t => insertChange t c)^[n + 1] s).count c = 1
    ∧ insertChange (insertChange s c) c = insertChange s c :=
  ⟨count_iterate_insertChange c n s h,
   insertChange_of_mem (self_mem_insertChange s c)⟩

/-- Witness for C4 at the concrete input of the spec: inserting
Change(Modified, "/a") twice into the empty set leaves one entry. -/
theorem c4_witness :
    ((fun t => insertChange t ⟨'M', ("/a").toList⟩)^[2] []).count ⟨'M', ("/a").toList⟩ = 1
    ∧ insertChange (insertChange [] ⟨'M', ("/a").toList⟩) ⟨'M', ("/a").toList⟩
      = insertChange [] ⟨'M', ("/a").toList⟩ :=
  c4_insert_idempotent [] ⟨'M', ("/a").toList⟩ 1 (by decide)

/-- Claim C5: entries with different kinds on the same path coexist — after
inserting Change(Modified, p) and Change(Deleted, p) into the empty set, the
set holds exactly two entries. -/
theorem c5_kind_distinct (p : List Char) :
    (insertChange (insertChange [] ⟨'M', p⟩) ⟨'D', p⟩).length = 2
    ∧ (⟨'M', p⟩ : Change) ∈ insertChange (insertChange [] ⟨'M', p⟩) ⟨'D', p⟩
    ∧ (⟨'D', p⟩ : Change) ∈ insertChange (insertChange [] ⟨'M', p⟩) ⟨'D', p⟩ := by
  have h1 : insertChange [] (⟨'M', p⟩ : Change) = [⟨'M', p⟩] := by
    simp [insertChange]
  have hne : (⟨'D', p⟩ : Change) ∉ [(⟨'M', p⟩ : Change)] := by
    simp [Change.mk.injEq]
  have h2 : insertChange [(⟨'M', p⟩ : Change)] ⟨'D', p⟩ = [⟨'M', p⟩, ⟨'D', p⟩] := by
    simp [insertChange, hne]
  rw [h1, h2]
  exact ⟨rfl, by simp, by simp⟩

/-- Claim C7: a moved event is judged on its source path only — two moved
events with the same source path and directory flag are handled identically
whatever their destinations; when accepted, exactly Change(Renamed, source)
is inserted, and nothing else enters the set. -/
theorem c7_moved_src_only (h : Handler) (s : List Change) (e e2 : FSEvent)
    (hsrc : e.src_path = e2.src_path) (hdir : e.is_directory = e2.is_directory) :
    on_moved h s e = on_moved h s e2
    ∧ (∀ c ∈ on_moved h s e, c ∈ s ∨ c = ⟨'R', e.src_path⟩)
    ∧ on_moved h s e =
        (if shouldProcess h e = true then insertChange s ⟨'R', e.src_path⟩ else s) := by
  have hsp : shouldProcess h e = shouldProcess h e2 := by
    simp only [shouldProcess, hsrc, hdir]
  refine ⟨?_, ?_, ?_⟩
  · simp only [on_moved, hsp, hsrc]
  · intro c hc
    unfold on_moved at hc
    split_ifs at hc with hp
    · exact (mem_insertChange s c _).1 hc
    · exact Or.inl hc
  · rfl

/-- Witness for C7: two moves of "/a", one to "/b" and one to "/c", under the
include glob `*`. -/
theorem c7_witness :
    on_moved (mkHandler ("*".toList) []) [] ⟨false, ("/a").toList, ("/b").toList⟩
      = on_moved (mkHandler ("*".toList) []) [] ⟨false, ("/a").toList, ("/c").toList⟩
    ∧ (∀ c ∈ on_moved (mkHandler ("*".toList) []) [] ⟨false, ("/a").toList, ("/b").toList⟩,
        c ∈ ([] : List Change) ∨ c = ⟨'R', ("/a").toList⟩)
    ∧ on_moved (mkHandler ("*".toList) []) [] ⟨false, ("/a").toList, ("/b").toList⟩
      = (if shouldProcess (mkHandler ("*".toList) []) ⟨false, ("/a").toList, ("/b").toList⟩ = true
          then insertChange [] ⟨'R', ("/a").toList⟩ else []) :=
  c7_moved_src_only (mkHandler ("*".toList) []) []
    ⟨false, ("/a").toList, ("/b").toList⟩ ⟨false, ("/a").toList, ("/c").toList⟩ rfl rfl

/-- Claim C2 measured on the code: the loop body prints a snapshot, runs the
command, and then calls `CHANGES.clear()`, so a change inserted while the
command runs is erased without ever being printed. Concretely: draining
{Change(M, "/a")} while Change(M, "/b") arrives mid-command leaves the set
empty and never prints "/b" — the inserted change is discarded, unlike what
the claim states. -/
theorem c2_midrun_change_discarded :
    tick ("cmd".toList) [⟨'M', ("/a").toList⟩] ⟨[], [⟨'M', ("/b").toList⟩], true⟩
      = { crashed := false, pending := [], printed := [⟨'M', ("/a").toList⟩] }
    ∧ (⟨'M', ("/b").toList⟩ : Change) ∉
        (tick ("cmd".toList) [⟨'M', ("/a").toList⟩] ⟨[], [⟨'M', ("/b").toList⟩], true⟩).printed
    ∧ (tick ("cmd".toList) [⟨'M', ("/a").toList⟩] ⟨[], [⟨'M', ("/b").toList⟩], true⟩).pending
      = [] := by
  refine ⟨?_, ?_, ?_⟩ <;> decide

theorem tick_err_eq (cmd : List Char) (changes : List Change) (inp : TickInput)
    (hne : (insertAll changes inp.pre).isEmpty = false)
    (hbad : (∃ e, shlexSplit cmd = Except.error e) ∨ inp.spawnOk = false) :
    tick cmd changes inp =
      { crashed := true,
        pending := insertAll (insertAll changes inp.pre) inp.mid,
        printed := sortByPath (insertAll changes inp.pre) } := by
  rcases hbad with ⟨e, he⟩ | hw
  · simp [tick, hne, he]
  · rcases hs : shlexSplit cmd with e | a
    · simp [tick, hne, hs]
    · simp [tick, hne, hs, hw]

/-- Claim C3 as amended: when the command cannot be tokenized or spawned the
error propagates out of the command-running step and, uncaught by anything in
`wait`, terminates the watch loop; the change set is not corrupted — the
cycle's starting entries are all still present (and were printed before the
attempt). -/
theorem c3_error_keeps_changes (cmd : List Char) (changes : List Change) (inp : TickInput)
    (hbad : (∃ e, shlexSplit cmd = Except.error e) ∨ inp.spawnOk = false)
    (hne : (insertAll changes inp.pre).isEmpty = false) :
    (tick cmd changes inp).crashed = true
    ∧ (tick cmd changes inp).printed = sortByPath (insertAll changes inp.pre)
    ∧ ∀ c ∈ insertAll changes inp.pre, c ∈ (tick cmd changes inp).pending := by
  rw [tick_err_eq cmd changes inp hne hbad]
  exact ⟨rfl, rfl, fun c hc => mem_insertAll inp.mid _ c hc⟩

/-- Witness for C3's amended claim: the unbalanced-quote command `"` on a
cycle that drains {Change(M, "/a")}. -/
theorem c3_witness :
    (tick ("\"".toList) [⟨'M', ("/a").toList⟩] ⟨[], [], true⟩).crashed = true
    ∧ (tick ("\"".toList) [⟨'M', ("/a").toList⟩] ⟨[], [], true⟩).printed
      = sortByPath (insertAll [⟨'M', ("/a").toList⟩] [])
    ∧ ∀ c ∈ insertAll [⟨'M', ("/a").toList⟩] ([] : List Change),
        c ∈ (tick ("\"".toList) [⟨'M', ("/a").toList⟩] ⟨[], [], true⟩).pending :=
  c3_error_keeps_changes ("\"".toList) [⟨'M', ("/a").toList⟩] ⟨[], [], true⟩
    (Or.inl ⟨TokError.noClosingQuote, rfl⟩) (by decide)

/-- Claim C3 as frozen is false on the code: with an untokenizable command
the exception escapes the `while True` body and only KeyboardInterrupt is
caught, so the watch loop does terminate. Concretely, a drain cycle with
command `"` crashes out of the loop. -/
theorem c3_counterexample :
    (tick ("\"".toList) [⟨'M', ("/a").toList⟩] ⟨[], [], true⟩).crashed = true := by
  decide

/-- Claim C6: whenever the set is non-empty, the drained changes are printed
sorted in ascending path order (and always before the command could run);
sorting by path is a permutation, and the paths ["/z","/a","/m"] print in the
order ["/a","/m","/z"]. -/
theorem c6_drain_sorted (cmd : List Char) (changes l : List Change) (inp : TickInput) :
    (tick cmd changes inp).printed =
      (if (insertAll changes inp.pre).isEmpty then []
       else sortByPath (insertAll changes inp.pre))
    ∧ List.Sorted changeLe (sortByPath l)
    ∧ List.Perm (sortByPath l) l
    ∧ (sortByPath [⟨'M', ("/z").toList⟩, ⟨'M', ("/a").toList⟩, ⟨'M', ("/m").toList⟩]).map
        Change.path = [("/a").toList, ("/m").toList, ("/z").toList] := by
  refine ⟨?_, List.sorted_insertionSort changeLe l, List.perm_insertionSort changeLe l,
    by decide⟩
  rcases hs : shlexSplit cmd with e | a
  · by_cases hp : (insertAll changes inp.pre).isEmpty <;> simp [tick, hp, hs]
  · by_cases hp : (insertAll changes inp.pre).isEmpty <;> cases hw : inp.spawnOk <;>
      simp [tick, hp, hs, hw]

/-- Claim C8: the command string is tokenized by shell-word-splitting rules
and the resulting argv is executed directly, never through a shell; the
command `run --opt "a b"` yields exactly ["run", "--opt", "a b"]. -/
theorem c8_tokenization :
    runCommandSpawn ("run --opt \"a b\"".toList)
      = Except.ok { argv := [("run").toList, ("--opt").toList, ("a b").toList],
                    useShell := false }
    ∧ ∀ cmd sp, runCommandSpawn cmd = Except.ok sp → sp.useShell = false := by
  refine ⟨by rfl, ?_⟩
  intro cmd sp h
  unfold runCommandSpawn at h
  rcases hs : shlexSplit cmd with e | a
  · rw [hs] at h
    simp [Except.map] at h
  · rw [hs] at h
    simp [Except.map] at h
    subst h
    rfl

/-- Claim C9: the include and exclude options are split on every comma with
no escape mechanism, so a glob containing a comma — such as the character
class `[a,b]` — becomes two separate patterns (here `[a` and `b]`), neither
of which matches what the whole glob would match, and no comma-containing
glob is ever among the handler's patterns. -/
theorem c9_comma_split :
    (mkHandler ("[a,b]".toList) []).patterns = [("[a").toList, ("b]").toList]
    ∧ shouldProcess (mkHandler ("[a,b]".toList) []) ⟨false, ("a").toList, []⟩ = false
    ∧ globMatch ("[a,b]".toList) (("a").toList) = true
    ∧ (∀ (g : List Char), ',' ∈ g → g ∉ (mkHandler g []).patterns)
    ∧ (∀ (g piece : List Char), piece ∈ pySplit ',' g → ',' ∉ piece) := by
  refine ⟨by decide, ?_, ?_, ?_, fun g piece hp => pySplit_sep_not_mem ',' g piece hp⟩
  · simp [shouldProcess, mkHandler, pySplit, matchesGlob, fnmatchcase, globMatch,
      parseClass, scanTo, inClass]
  · simp [globMatch, parseClass, scanTo, inClass]
  · intro g hg hmem
    have hge : g.isEmpty = false := by
      cases g
      · simp at hg
      · rfl
    simp only [mkHandler, hge, Bool.false_eq_true, if_false] at hmem
    exact pySplit_sep_not_mem ',' g g hmem hg

/-- Claim C10: deduplication is by exact path string equality with no
normalization — for any two different path strings of the same kind (such as
"./a" and "a"), the set keeps both entries and the drain prints one line for
each. -/
theorem c10_exact_path_identity (k : Char) (p q : List Char) (hpq : p ≠ q) :
    (insertChange (insertChange [] ⟨k, p⟩) ⟨k, q⟩).length = 2
    ∧ (⟨k, p⟩ : Change) ∈ insertChange (insertChange [] ⟨k, p⟩) ⟨k, q⟩
    ∧ (⟨k, q⟩ : Change) ∈ insertChange (insertChange [] ⟨k, p⟩) ⟨k, q⟩
    ∧ (sortByPath (insertChange (insertChange [] ⟨k, p⟩) ⟨k, q⟩)).length = 2 := by
  have h1 : insertChange [] (⟨k, p⟩ : Change) = [⟨k, p⟩] := by
    simp [insertChange]
  have hne : (⟨k, q⟩ : Change) ∉ [(⟨k, p⟩ : Change)] := by
    simp only [List.mem_singleton, Change.mk.injEq, not_and, true_and]
    exact fun h => hpq h.symm
  have h2 : insertChange [(⟨k, p⟩ : Change)] ⟨k, q⟩ = [⟨k, p⟩, ⟨k, q⟩] := by
    unfold insertChange
    rw [if_neg hne]
    rfl
  rw [h1, h2]
  refine ⟨rfl, by simp, by simp, ?_⟩
  simpa [sortByPath] using
    (List.perm_insertionSort changeLe [(⟨k, p⟩ : Change), ⟨k, q⟩]).length_eq

/-- Witness for C10 at the spec's example: "./a" and "a" are different path
strings, so both entries survive and two lines print. -/
theorem c10_witness :
    (insertChange (insertChange [] ⟨'M', ("./a").toList⟩) ⟨'M', ("a").toList⟩).length = 2
    ∧ (⟨'M', ("./a").toList⟩ : Change)
        ∈ insertChange (insertChange [] ⟨'M', ("./a").toList⟩) ⟨'M', ("a").toList⟩
    ∧ (⟨'M', ("a").toList⟩ : Change)
        ∈ insertChange (insertChange [] ⟨'M', ("./a").toList⟩) ⟨'M', ("a").toList⟩
    ∧ (sortByPath (insertChange (insertChange [] ⟨'M', ("./a").toList⟩)
        ⟨'M', ("a").toList⟩)).length = 2 :=
  c10_exact_path_identity 'M' (("./a").toList) (("a").toList) (by decide)
